import Mathlib

/-!
Verification of the stereogram generator (`src/stereogram_gui.py`).

The core synthesis routine `stereogram_from_depth_texture(depth_map,
texture_img, pattern_width, depth_strength)` is embedded shallowly:

* a pixel row is a function `Nat → α` (columns beyond the image width are
  irrelevant to every statement, which is always bounded by the width `w`);
* the per-row link pass (`indices = np.arange(w)`; `for x in
  range(pattern_width, w): ... indices[x] = indices[left - z]`) becomes a
  `List.foldl` of a functional array update over `List.range' pattern_width
  (w - pattern_width)`;
* the per-row resolution pass (`sgram[y, :pattern_width] = texture[y,
  :pattern_width]`; `for x in ...: sgram[y, x] = sgram[y, indices[x]]`)
  becomes a second fold starting from the seeded row over the
  zero-initialised buffer (`np.zeros_like`);
* the shift `z = int(depth_strength * (1.0 - depth_map[y, x] / 255.0))` is
  modelled in exact arithmetic: for `depth_strength ≥ 0` and byte-valued
  depth entries the value is the nonnegative
  `depth_strength * (255 - d) / 255` with Nat (floor) division, which is
  `int()` (truncation toward zero) of the exact real expression.

A bounds-checked variant threads every computed-index array read through
`Except`, modelling numpy's IndexError surface, and takes the two
parameters as `Int` (Python ints may be negative, with numpy wrapping
negative in-range indices); the Python function body contains no explicit
validation and no raise statement.
-/

namespace Stereogram

/-- An RGB pixel, each component a byte value. -/
abbrev Pix := Nat × Nat × Nat

/-- The zero pixel produced by `np.zeros_like(texture)`. -/
def black : Pix := (0, 0, 0)

/-- Functional array update: `upd f i v` is `f` with cell `i` set to `v`. -/
def upd {α : Type} (f : Nat → α) (i : Nat) (v : α) : Nat → α :=
  fun j => if j = i then v else f j

/-- The shift `z = int(depth_strength * (1.0 - d / 255.0))` of
`stereogram_from_depth_texture`, in exact arithmetic: for a byte value `d`
this is `⌊ds * (255 - d) / 255⌋`. -/
def shiftZ (ds d : Nat) : Nat := ds * (255 - d) / 255

/-- One iteration of the link pass at column `x`:
`z = ...; left = x - pattern_width; if left - z >= 0: indices[x] =
indices[left - z]`.  Inside the loop `x ≥ pattern_width`, so `left` is the
exact difference and `left - z ≥ 0` is `z ≤ left`. -/
def linkStep (dRow : Nat → Nat) (pw ds : Nat) (ind : Nat → Nat) (x : Nat) :
    Nat → Nat :=
  let z := shiftZ ds (dRow x)
  if z ≤ x - pw then upd ind x (ind (x - pw - z)) else ind

/-- The link pass folded over a list of columns, starting from the identity
table `np.arange(w)`. -/
def linkFold (dRow : Nat → Nat) (pw ds : Nat) (xs : List Nat) : Nat → Nat :=
  xs.foldl (linkStep dRow pw ds) (fun j => j)

/-- The completed per-row link table: the loop runs over
`range(pattern_width, w)`. -/
def linkTable (dRow : Nat → Nat) (pw ds w : Nat) : Nat → Nat :=
  linkFold dRow pw ds (List.range' pw (w - pw))

/-- The output row after the seeding line
`sgram[y, :pattern_width] = texture[y, :pattern_width]` applied to the
zero-initialised buffer. -/
def seedRow (texRow : Nat → Pix) (pw : Nat) : Nat → Pix :=
  fun j => if j < pw then texRow j else black

/-- One iteration of the resolution pass: `sgram[y, x] = sgram[y, indices[x]]`. -/
def resolveStep (ind : Nat → Nat) (out : Nat → Pix) (x : Nat) : Nat → Pix :=
  upd out x (out (ind x))

/-- The resolution pass folded over a list of columns. -/
def resolveFold (ind : Nat → Nat) (out0 : Nat → Pix) (xs : List Nat) :
    Nat → Pix :=
  xs.foldl (resolveStep ind) out0

/-- One finished output row of `stereogram_from_depth_texture`. -/
def rowOutput (dRow : Nat → Nat) (texRow : Nat → Pix) (pw ds w : Nat) :
    Nat → Pix :=
  resolveFold (linkTable dRow pw ds w) (seedRow texRow pw)
    (List.range' pw (w - pw))

/-- The full synthesis: rows are processed independently.  `depth` and `tex`
are the depth and (already matching-size) texture buffers. -/
def synthesize (depth : Nat → Nat → Nat) (tex : Nat → Nat → Pix)
    (pw ds w : Nat) : Nat → Nat → Pix :=
  fun y => rowOutput (depth y) (tex y) pw ds w

/-! ### Bounds-checked execution with the source's parameter types

The Python body of `stereogram_from_depth_texture` contains no validation
and no raise statement of its own; the only way it can signal is a numpy
`IndexError` on an array read through a computed index.  Both parameters
are Python ints and may be negative, so the checked model takes
`pattern_width` and `depth_strength` as `Int`: negative column indices in
`[-w, 0)` wrap around (numpy semantics), indices outside `[-w, w)` raise,
and `int()` truncates toward zero (`Int.tdiv`).  A parallel pure model
gives the value produced when no read goes out of bounds. -/

/-- The shift with an `Int` `depth_strength`:
`int(ds * (1.0 - d / 255.0))` truncates toward zero, which on the exact
value is `Int.tdiv (ds * (255 - d)) 255`. -/
def intShiftZ (ds : Int) (d : Nat) : Int := Int.tdiv (ds * (255 - (d : Int))) 255

/-- numpy index normalisation for an in-bounds index of an array of width
`w`: a negative index counts from the end. -/
def wrapIdx (w : Nat) (i : Int) : Nat :=
  if 0 ≤ i then i.toNat else (i + (w : Int)).toNat

/-- A numpy read from an array of width `w` at a possibly negative index:
indices in `[0, w)` read directly, indices in `[-w, 0)` wrap, anything
else raises `IndexError`. -/
def readArrI {α : Type} (w : Nat) (f : Nat → α) (i : Int) : Except String α :=
  if 0 ≤ i ∧ i < (w : Int) then Except.ok (f i.toNat)
  else if -(w : Int) ≤ i ∧ i < 0 then Except.ok (f (i + (w : Int)).toNat)
  else Except.error "IndexError"

/-- The columns visited by `range(pattern_width, w)` for an `Int`
`pattern_width` (possibly negative). -/
def intRange (pw : Int) (w : Nat) : List Int :=
  (List.range ((w : Int) - pw).toNat).map (fun (k : Nat) => pw + (k : Int))

/-- The link-pass body with `Int` parameters and checked reads: read the
depth at `x`, compute `z` and `left = x - pattern_width`, and if
`left - z >= 0` read `indices[left - z]` (raising if it is `≥ w`) and
store it at `x`. -/
def linkStepChkI (dRow : Nat → Nat) (pw ds : Int) (w : Nat)
    (ind : Nat → Nat) (x : Int) : Except String (Nat → Nat) := do
  let d ← readArrI w dRow x
  let z := intShiftZ ds d
  let left := x - pw
  if 0 ≤ left - z then do
    let v ← readArrI w ind (left - z)
    pure (upd ind (wrapIdx w x) v)
  else
    pure ind

/-- The pure value of the link-pass body where its reads are in bounds. -/
def linkStepI (dRow : Nat → Nat) (pw ds : Int) (w : Nat)
    (ind : Nat → Nat) (x : Int) : Nat → Nat :=
  let d := dRow (wrapIdx w x)
  let z := intShiftZ ds d
  let left := x - pw
  if 0 ≤ left - z ∧ left - z < (w : Int) then
    upd ind (wrapIdx w x) (ind (left - z).toNat)
  else ind

/-- The completed link table of the `Int`-parameter model. -/
def linkTableI (dRow : Nat → Nat) (pw ds : Int) (w : Nat) : Nat → Nat :=
  (intRange pw w).foldl (linkStepI dRow pw ds w) (fun j => j)

/-- The resolution-pass body with checked reads:
`sgram[y, x] = sgram[y, indices[x]]`. -/
def resolveStepChkI (w : Nat) (ind : Nat → Nat) (out : Nat → Pix)
    (x : Int) : Except String (Nat → Pix) := do
  let j ← readArrI w ind x
  let v ← readArrI w out (j : Int)
  pure (upd out (wrapIdx w x) v)

/-- The pure value of the resolution-pass body where its reads are in
bounds. -/
def resolveStepI (w : Nat) (ind : Nat → Nat) (out : Nat → Pix) (x : Int) :
    Nat → Pix :=
  upd out (wrapIdx w x) (out (ind (wrapIdx w x)))

/-- The number of columns written by the slice assignment
`sgram[y, :pattern_width]` for an `Int` `pattern_width`: Python slice
semantics clamp `pattern_width` into `[0, w]`, a negative stop counting
from the end. -/
def seedLen (w : Nat) (pw : Int) : Nat :=
  if 0 ≤ pw then min pw.toNat w else ((w : Int) + pw).toNat

/-- The output row after the seeding slice assignment, on the
zero-initialised buffer. -/
def seedRowI (texRow : Nat → Pix) (w : Nat) (pw : Int) : Nat → Pix :=
  fun j => if j < seedLen w pw then texRow j else black

/-- One finished output row of the pure `Int`-parameter model. -/
def rowOutputI (dRow : Nat → Nat) (texRow : Nat → Pix) (pw ds : Int)
    (w : Nat) : Nat → Pix :=
  (intRange pw w).foldl (resolveStepI w (linkTableI dRow pw ds w))
    (seedRowI texRow w pw)

/-- One row of the synthesis with `Int` parameters and checked reads: the
two loops of `stereogram_from_depth_texture` for a single `y`. -/
def rowOutputChkI (dRow : Nat → Nat) (texRow : Nat → Pix) (pw ds : Int)
    (w : Nat) : Except String (Nat → Pix) := do
  let ind ← (intRange pw w).foldlM (linkStepChkI dRow pw ds w) (fun j => j)
  (intRange pw w).foldlM (resolveStepChkI w ind) (seedRowI texRow w pw)

/-- The row loop `for y in range(h)` with checked reads, collecting the
produced rows. -/
def rowsChkI (depth : Nat → Nat → Nat) (tex : Nat → Nat → Pix)
    (pw ds : Int) (w : Nat) : List Nat → Except String (List (Nat → Pix))
  | [] => Except.ok []
  | y :: ys => do
    let r ← rowOutputChkI (depth y) (tex y) pw ds w
    let rs ← rowsChkI depth tex pw ds w ys
    pure (r :: rs)

/-- The full synthesis with `Int` parameters and checked reads. -/
def synthesizeChkI (depth : Nat → Nat → Nat) (tex : Nat → Nat → Pix)
    (pw ds : Int) (w h : Nat) : Except String (List (Nat → Pix)) :=
  rowsChkI depth tex pw ds w (List.range h)

/-! ### The preprocessor `load_and_resize` -/

/-- The auto-invert step of `load_and_resize` on the flattened grayscale
array: `if np.mean(arr) > 200: arr = 255 - arr`.  For a nonempty array
`mean(arr) > 200` is exactly `200 * length < sum`. -/
def autoInvert (arr : List Nat) : List Nat :=
  if 200 * arr.length < arr.sum then arr.map (fun v => 255 - v) else arr

/-! ### Generic lemmas about single-cell-update folds -/

/-- A fold whose step only changes the cell named by the list element leaves
every other cell alone. -/
theorem foldl_frame {α : Type} (f : (Nat → α) → Nat → (Nat → α))
    (hf : ∀ g x j, j ≠ x → f g x j = g j) :
    ∀ (xs : List Nat) (g : Nat → α) (j : Nat), j ∉ xs →
      xs.foldl f g j = g j := by
  intro xs
  induction xs with
  | nil => intro g j _; rfl
  | cons a as ih =>
      intro g j hj
      have hja : j ≠ a := fun h => hj (h ▸ List.mem_cons_self a as)
      have hjas : j ∉ as := fun h => hj (List.mem_cons_of_mem a h)
      calc (a :: as).foldl f g j = as.foldl f (f g a) j := rfl
        _ = f g a j := ih (f g a) j hjas
        _ = g j := hf g a j hja

/-- Processing further columns never revisits a cell below the frontier:
the fold over `List.range' s m` agrees with the fold over the prefix
`List.range' s n` on every cell `j < s + n`. -/
theorem foldl_range'_stable {α : Type} (f : (Nat → α) → Nat → (Nat → α))
    (hf : ∀ g x j, j ≠ x → f g x j = g j) (s : Nat) (g : Nat → α) :
    ∀ (k n j : Nat), j < s + n →
      (List.range' s (n + k)).foldl f g j = (List.range' s n).foldl f g j := by
  intro k
  induction k with
  | zero => intro n j _; rfl
  | succ k ih =>
      intro n j hj
      have hconcat : List.range' s (n + k + 1) =
          List.range' s (n + k) ++ [s + (n + k)] := by
        have := @List.range'_concat 1 s (n + k)
        simpa using this
      have hne : j ≠ s + (n + k) := by omega
      calc (List.range' s (n + (k + 1))).foldl f g j
          = (List.range' s (n + k) ++ [s + (n + k)]).foldl f g j := by
            rw [show n + (k + 1) = n + k + 1 by omega, hconcat]
        _ = f ((List.range' s (n + k)).foldl f g) (s + (n + k)) j := by
            rw [List.foldl_append]; rfl
        _ = (List.range' s (n + k)).foldl f g j :=
            hf ((List.range' s (n + k)).foldl f g) (s + (n + k)) j hne
        _ = (List.range' s n).foldl f g j := ih n j hj

/-- `linkStep` changes only the cell at the processed column. -/
theorem linkStep_frame (dRow : Nat → Nat) (pw ds : Nat)
    (g : Nat → Nat) (x j : Nat) (hj : j ≠ x) :
    linkStep dRow pw ds g x j = g j := by
  unfold linkStep upd
  by_cases h : shiftZ ds (dRow x) ≤ x - pw <;> simp [h, hj]

/-- `resolveStep` changes only the cell at the processed column. -/
theorem resolveStep_frame (ind : Nat → Nat)
    (g : Nat → Pix) (x j : Nat) (hj : j ≠ x) :
    resolveStep ind g x j = g j := by
  unfold resolveStep upd
  simp [hj]

/-! ### The link-table invariant -/

/-- Every intermediate link table points weakly leftward: starting from the
identity table, after any sequence of link steps `ind j ≤ j` for all `j`. -/
theorem linkFold_le (dRow : Nat → Nat) (pw ds : Nat) :
    ∀ (xs : List Nat) (ind : Nat → Nat), (∀ j, ind j ≤ j) →
      ∀ j, xs.foldl (linkStep dRow pw ds) ind j ≤ j := by
  intro xs
  induction xs with
  | nil => intro ind h j; exact h j
  | cons a as ih =>
      intro ind h j
      refine ih (linkStep dRow pw ds ind a) ?_ j
      intro i
      unfold linkStep upd
      by_cases hc : shiftZ ds (dRow a) ≤ a - pw
      · by_cases hia : i = a
        · subst hia
          simp only [hc, if_true, if_pos rfl]
          exact le_trans (h _) (by omega)
        · simp [hc, hia, h i]
      · simp [hc, h i]

theorem linkTable_le (dRow : Nat → Nat) (pw ds w : Nat) (j : Nat) :
    linkTable dRow pw ds w j ≤ j :=
  linkFold_le dRow pw ds _ _ (fun _ => le_refl _) j

/-! ### Loop recurrences satisfied by the finished row -/

/-- Columns left of the seed band keep their identity link. -/
theorem linkTable_lo (dRow : Nat → Nat) (pw ds w j : Nat) (hj : j < pw) :
    linkTable dRow pw ds w j = j := by
  unfold linkTable linkFold
  refine foldl_frame _ (linkStep_frame dRow pw ds) _ _ j ?_
  intro hmem
  rcases List.mem_range'_1.mp hmem with ⟨h1, _⟩
  omega

/-- The completed link table satisfies the link loop's defining recurrence:
an in-range column chases through the final value at `left - z`, and keeps
the identity when `left - z < 0`.  `1 ≤ pw` makes the chased cell strictly
left of `x`. -/
theorem linkTable_eq (dRow : Nat → Nat) (pw ds w : Nat) (hpw : 1 ≤ pw)
    (x : Nat) (hx1 : pw ≤ x) (hx2 : x < w) :
    linkTable dRow pw ds w x =
      if shiftZ ds (dRow x) ≤ x - pw then
        linkTable dRow pw ds w (x - pw - shiftZ ds (dRow x))
      else x := by
  have hk : x - pw < w - pw := by omega
  have hTfull : ∀ j, j < pw + (x - pw) →
      linkTable dRow pw ds w j =
        (List.range' pw (x - pw)).foldl (linkStep dRow pw ds) (fun i => i) j := by
    intro j hj
    unfold linkTable linkFold
    have h := foldl_range'_stable (linkStep dRow pw ds)
      (linkStep_frame dRow pw ds) pw (fun i => i)
      ((w - pw) - (x - pw)) (x - pw) j hj
    rw [show (x - pw) + ((w - pw) - (x - pw)) = w - pw from by omega] at h
    exact h
  have hfull_x : linkTable dRow pw ds w x =
      (List.range' pw ((x - pw) + 1)).foldl (linkStep dRow pw ds) (fun i => i) x := by
    unfold linkTable linkFold
    have h := foldl_range'_stable (linkStep dRow pw ds)
      (linkStep_frame dRow pw ds) pw (fun i => i)
      ((w - pw) - ((x - pw) + 1)) ((x - pw) + 1) x (by omega)
    rw [show ((x - pw) + 1) + ((w - pw) - ((x - pw) + 1)) = w - pw from by omega] at h
    exact h
  have hsnoc : List.range' pw ((x - pw) + 1) =
      List.range' pw (x - pw) ++ [pw + (x - pw)] := by
    simpa using @List.range'_concat 1 pw (x - pw)
  have hstep : (List.range' pw ((x - pw) + 1)).foldl (linkStep dRow pw ds)
        (fun i => i) x =
      linkStep dRow pw ds
        ((List.range' pw (x - pw)).foldl (linkStep dRow pw ds) (fun i => i))
        (pw + (x - pw)) x := by
    rw [hsnoc, List.foldl_append]
    rfl
  have hnotmem : x ∉ List.range' pw (x - pw) := by
    intro hmem
    rcases List.mem_range'_1.mp hmem with ⟨_, h2⟩
    omega
  have hTx : (List.range' pw (x - pw)).foldl (linkStep dRow pw ds)
      (fun i => i) x = x :=
    foldl_frame _ (linkStep_frame dRow pw ds) _ _ x hnotmem
  rw [hfull_x, hstep, show pw + (x - pw) = x from by omega]
  by_cases hc : shiftZ ds (dRow x) ≤ x - pw
  · rw [if_pos hc]
    simp only [linkStep, upd, hc, if_true, if_pos rfl]
    exact (hTfull (x - pw - shiftZ ds (dRow x)) (by omega)).symm
  · rw [if_neg hc]
    simp only [linkStep, upd, hc, if_false]
    exact hTx

/-- Columns in the seed band read the texture directly and are untouched by
the resolution loop. -/
theorem rowOutput_lo (dRow : Nat → Nat) (texRow : Nat → Pix) (pw ds w x : Nat)
    (hx : x < pw) :
    rowOutput dRow texRow pw ds w x = texRow x := by
  unfold rowOutput resolveFold
  have hnm : x ∉ List.range' pw (w - pw) := by
    intro hmem
    rcases List.mem_range'_1.mp hmem with ⟨h1, _⟩
    omega
  rw [foldl_frame _ (resolveStep_frame _) _ _ x hnm]
  unfold seedRow
  simp [hx]

/-- The finished output row satisfies the resolution loop's recurrence: an
in-range column copies the final value at its link target when that target
is a strictly earlier column, and keeps the zero initialisation (`black`)
when its link is the identity. -/
theorem rowOutput_eq (dRow : Nat → Nat) (texRow : Nat → Pix) (pw ds w : Nat)
    (x : Nat) (hx1 : pw ≤ x) (hx2 : x < w) :
    rowOutput dRow texRow pw ds w x =
      if linkTable dRow pw ds w x = x then black
      else rowOutput dRow texRow pw ds w (linkTable dRow pw ds w x) := by
  have hk : x - pw < w - pw := by omega
  have hUfull : ∀ j, j < pw + (x - pw) →
      rowOutput dRow texRow pw ds w j =
        (List.range' pw (x - pw)).foldl (resolveStep (linkTable dRow pw ds w))
          (seedRow texRow pw) j := by
    intro j hj
    unfold rowOutput resolveFold
    have h := foldl_range'_stable (resolveStep (linkTable dRow pw ds w))
      (resolveStep_frame _) pw (seedRow texRow pw)
      ((w - pw) - (x - pw)) (x - pw) j hj
    rw [show (x - pw) + ((w - pw) - (x - pw)) = w - pw from by omega] at h
    exact h
  have hfull_x : rowOutput dRow texRow pw ds w x =
      (List.range' pw ((x - pw) + 1)).foldl (resolveStep (linkTable dRow pw ds w))
        (seedRow texRow pw) x := by
    unfold rowOutput resolveFold
    have h := foldl_range'_stable (resolveStep (linkTable dRow pw ds w))
      (resolveStep_frame _) pw (seedRow texRow pw)
      ((w - pw) - ((x - pw) + 1)) ((x - pw) + 1) x (by omega)
    rw [show ((x - pw) + 1) + ((w - pw) - ((x - pw) + 1)) = w - pw from by omega] at h
    exact h
  have hsnoc : List.range' pw ((x - pw) + 1) =
      List.range' pw (x - pw) ++ [pw + (x - pw)] := by
    simpa using @List.range'_concat 1 pw (x - pw)
  have hstep : (List.range' pw ((x - pw) + 1)).foldl
        (resolveStep (linkTable dRow pw ds w)) (seedRow texRow pw) x =
      resolveStep (linkTable dRow pw ds w)
        ((List.range' pw (x - pw)).foldl (resolveStep (linkTable dRow pw ds w))
          (seedRow texRow pw))
        (pw + (x - pw)) x := by
    rw [hsnoc, List.foldl_append]
    rfl
  have hnotmem : x ∉ List.range' pw (x - pw) := by
    intro hmem
    rcases List.mem_range'_1.mp hmem with ⟨_, h2⟩
    omega
  rw [hfull_x, hstep, show pw + (x - pw) = x from by omega]
  simp only [resolveStep, upd, if_pos rfl]
  by_cases hI : linkTable dRow pw ds w x = x
  · rw [if_pos hI, hI]
    have hUx : (List.range' pw (x - pw)).foldl
        (resolveStep (linkTable dRow pw ds w)) (seedRow texRow pw) x =
        seedRow texRow pw x :=
      foldl_frame _ (resolveStep_frame _) _ _ x hnotmem
    rw [hUx]
    unfold seedRow
    simp [Nat.not_lt.mpr hx1]
  · rw [if_neg hI]
    have hlt : linkTable dRow pw ds w x < x :=
      lt_of_le_of_ne (linkTable_le dRow pw ds w x) hI
    exact (hUfull (linkTable dRow pw ds w x) (by omega)).symm

/-- A fold in `Except` whose every step succeeds equals the pure fold. -/
theorem foldlM_ok {σ α : Type} (F : σ → α → Except String σ) (f : σ → α → σ) :
    ∀ (xs : List α), (∀ s, ∀ a ∈ xs, F s a = Except.ok (f s a)) →
      ∀ s : σ, xs.foldlM F s = Except.ok (xs.foldl f s) := by
  intro xs
  induction xs with
  | nil => intro _ s; rfl
  | cons a as ih =>
      intro hF s
      have h1 : F s a = Except.ok (f s a) := hF s a (List.mem_cons_self a as)
      have h2 : ∀ s, ∀ b ∈ as, F s b = Except.ok (f s b) :=
        fun s b hb => hF s b (List.mem_cons_of_mem a hb)
      calc (a :: as).foldlM F s = F s a >>= fun s2 => as.foldlM F s2 := rfl
        _ = as.foldlM F (f s a) := by rw [h1]; rfl
        _ = Except.ok (as.foldl f (f s a)) := ih h2 (f s a)
        _ = Except.ok ((a :: as).foldl f s) := rfl

/-- Every element of the processed column range is a valid column. -/
theorem mem_colRange (pw w x : Nat) (hx : x ∈ List.range' pw (w - pw)) :
    pw ≤ x ∧ x < w := by
  rcases List.mem_range'_1.mp hx with ⟨h1, h2⟩
  omega

/-- Every column visited by `range(pattern_width, w)` lies in `[pw, w)`. -/
theorem mem_intRange (pw : Int) (w : Nat) (x : Int) (hx : x ∈ intRange pw w) :
    pw ≤ x ∧ x < (w : Int) := by
  unfold intRange at hx
  rw [List.mem_map] at hx
  obtain ⟨k, hk, hkx⟩ := hx
  rw [List.mem_range] at hk
  omega

/-- For a nonnegative `depth_strength` and a byte depth value the shift is
nonnegative. -/
theorem intShiftZ_nonneg (ds : Int) (d : Nat) (hds : 0 ≤ ds) (hd : d ≤ 255) :
    0 ≤ intShiftZ ds d := by
  unfold intShiftZ
  exact Int.tdiv_nonneg (mul_nonneg hds (by omega)) (by norm_num)

/-- A nonnegative column needs no wrap-around. -/
theorem wrapIdx_of_nonneg (w : Nat) (i : Int) (hi : 0 ≤ i) :
    wrapIdx w i = i.toNat := by
  unfold wrapIdx
  rw [if_pos hi]

/-- With a nonnegative `pattern_width`, a nonnegative in-range column and a
nonnegative shift, the checked link step succeeds and computes the pure
step: the chased index `left - z` then lies below `x < w`. -/
theorem linkStepChkI_ok (dRow : Nat → Nat) (pw ds : Int) (w : Nat)
    (ind : Nat → Nat) (x : Int) (hpw : 0 ≤ pw) (hx0 : 0 ≤ x)
    (hxw : x < (w : Int)) (hz : 0 ≤ intShiftZ ds (dRow x.toNat)) :
    linkStepChkI dRow pw ds w ind x =
      Except.ok (linkStepI dRow pw ds w ind x) := by
  by_cases hc : 0 ≤ x - pw - intShiftZ ds (dRow x.toNat)
  · have hc2 : x - pw - intShiftZ ds (dRow x.toNat) < (w : Int) := by omega
    simp [linkStepChkI, linkStepI, readArrI, wrapIdx, hx0, hxw, hc, hc2,
      Bind.bind, Except.bind, Pure.pure, Except.pure]
  · simp [linkStepChkI, linkStepI, readArrI, wrapIdx, hx0, hxw, hc,
      Bind.bind, Except.bind, Pure.pure, Except.pure]

/-- The pure `Int`-model link fold keeps every table cell below `w`. -/
theorem linkFoldI_lt (dRow : Nat → Nat) (pw ds : Int) (w : Nat) :
    ∀ (xs : List Int) (ind : Nat → Nat), (∀ c, c < w → ind c < w) →
      ∀ c, c < w → xs.foldl (linkStepI dRow pw ds w) ind c < w := by
  intro xs
  induction xs with
  | nil => intro ind h c hc; exact h c hc
  | cons a as ih =>
      intro ind h c hc
      refine ih (linkStepI dRow pw ds w ind a) ?_ c hc
      intro i hi
      simp only [linkStepI]
      by_cases hcnd : 0 ≤ a - pw - intShiftZ ds (dRow (wrapIdx w a)) ∧
          a - pw - intShiftZ ds (dRow (wrapIdx w a)) < (w : Int)
      · rw [if_pos hcnd]
        unfold upd
        by_cases hia : i = wrapIdx w a
        · rw [if_pos hia]
          refine h _ ?_
          omega
        · rw [if_neg hia]
          exact h i hi
      · rw [if_neg hcnd]
        exact h i hi

/-- A nonnegative in-range column whose link value is below `w` makes the
checked resolution step succeed and compute the pure step. -/
theorem resolveStepChkI_ok (w : Nat) (ind : Nat → Nat) (out : Nat → Pix)
    (x : Int) (hx0 : 0 ≤ x) (hxw : x < (w : Int)) (hind : ind x.toNat < w) :
    resolveStepChkI w ind out x = Except.ok (resolveStepI w ind out x) := by
  have hcast : ((ind x.toNat : Nat) : Int) < (w : Int) := by exact_mod_cast hind
  simp [resolveStepChkI, resolveStepI, readArrI, wrapIdx, hx0, hxw, hcast,
    Int.natCast_nonneg, Bind.bind, Except.bind, Pure.pure, Except.pure]

/-- For nonnegative parameters and a byte-valued depth row the checked row
synthesis never signals: every computed read stays in bounds and the row
equals the pure model's row. -/
theorem rowOutputChkI_ok (dRow : Nat → Nat) (texRow : Nat → Pix)
    (pw ds : Int) (w : Nat) (hpw : 0 ≤ pw) (hds : 0 ≤ ds)
    (hbyte : ∀ j, j < w → dRow j ≤ 255) :
    rowOutputChkI dRow texRow pw ds w =
      Except.ok (rowOutputI dRow texRow pw ds w) := by
  have hmem : ∀ a ∈ intRange pw w, 0 ≤ a ∧ a < (w : Int) := by
    intro a ha
    have h := mem_intRange pw w a ha
    exact ⟨le_trans hpw h.1, h.2⟩
  have hlink : (intRange pw w).foldlM (linkStepChkI dRow pw ds w)
      (fun j => j) = Except.ok (linkTableI dRow pw ds w) := by
    unfold linkTableI
    refine foldlM_ok _ _ _ ?_ (fun j => j)
    intro s a ha
    obtain ⟨ha0, haw⟩ := hmem a ha
    have hzb : 0 ≤ intShiftZ ds (dRow a.toNat) :=
      intShiftZ_nonneg ds _ hds (hbyte a.toNat (by omega))
    exact linkStepChkI_ok dRow pw ds w s a hpw ha0 haw hzb
  have hInv : ∀ c, c < w → linkTableI dRow pw ds w c < w :=
    linkFoldI_lt dRow pw ds w (intRange pw w) (fun j => j) (fun c hc => hc)
  have hres : (intRange pw w).foldlM
      (resolveStepChkI w (linkTableI dRow pw ds w)) (seedRowI texRow w pw) =
      Except.ok (rowOutputI dRow texRow pw ds w) := by
    unfold rowOutputI
    refine foldlM_ok _ _ _ ?_ (seedRowI texRow w pw)
    intro s a ha
    obtain ⟨ha0, haw⟩ := hmem a ha
    exact resolveStepChkI_ok w _ s a ha0 haw (hInv a.toNat (by omega))
  calc rowOutputChkI dRow texRow pw ds w
      = (intRange pw w).foldlM (linkStepChkI dRow pw ds w) (fun j => j) >>=
          fun ind => (intRange pw w).foldlM (resolveStepChkI w ind)
            (seedRowI texRow w pw) := rfl
    _ = Except.ok (rowOutputI dRow texRow pw ds w) := by rw [hlink]; exact hres

/-- The checked row loop never signals for nonnegative parameters and
byte-valued depth buffers. -/
theorem rowsChkI_ok (depth : Nat → Nat → Nat) (tex : Nat → Nat → Pix)
    (pw ds : Int) (w : Nat) (hpw : 0 ≤ pw) (hds : 0 ≤ ds)
    (hbyte : ∀ y x, x < w → depth y x ≤ 255) :
    ∀ ys : List Nat, rowsChkI depth tex pw ds w ys =
      Except.ok (ys.map (fun y => rowOutputI (depth y) (tex y) pw ds w)) := by
  intro ys
  induction ys with
  | nil => rfl
  | cons y ys ih =>
      calc rowsChkI depth tex pw ds w (y :: ys)
          = rowOutputChkI (depth y) (tex y) pw ds w >>= fun r =>
              rowsChkI depth tex pw ds w ys >>= fun rs =>
                pure (r :: rs) := rfl
        _ = Except.ok ((y :: ys).map
              (fun y => rowOutputI (depth y) (tex y) pw ds w)) := by
            rw [rowOutputChkI_ok (depth y) (tex y) pw ds w hpw hds (hbyte y), ih]
            rfl

/-! ### Claims -/

/-- C1 (counterexample).  Depth row all 0, texture all `(7,7,7)`,
`pattern_width = 1`, `depth_strength = 1`, width 2: at `x = 1` the chase
falls back to the identity (`left - z = -1 < 0`), and the resolution pass
leaves the zero-initialised cell `(0,0,0)` there — not a texture-derived
value, although the texture is constantly `(7,7,7)`. -/
theorem resolution_reads_unwritten_cell_cex :
    linkTable (fun _ => 0) 1 1 2 1 = 1 ∧
    rowOutput (fun _ => 0) (fun _ => ((7, 7, 7) : Pix)) 1 1 2 1 = (0, 0, 0) ∧
    (fun _ => ((7, 7, 7) : Pix)) 0 = (7, 7, 7) ∧
    (fun _ => ((7, 7, 7) : Pix)) 1 = (7, 7, 7) := by
  refine ⟨by decide, by decide, rfl, rfl⟩

/-- C1 (amended).  A single left-to-right pass does resolve every pixel,
because `index[x] ≤ x`: when a remap occurred (`index[x] < x`) the cell read
is already final, and the output pixel copies the finished value at
`index[x]`; but when the chase fell back to the identity (`index[x] = x`,
`x ≥ pattern_width`), the pass reads the pixel's own cell, which still
holds the zero initialisation, so the pixel resolves to `black`, not to a
texture-derived value. -/
theorem resolution_single_pass_or_black (dRow : Nat → Nat)
    (texRow : Nat → Pix) (pw ds w x : Nat) (hx1 : pw ≤ x) (hx2 : x < w) :
    linkTable dRow pw ds w x ≤ x ∧
    (linkTable dRow pw ds w x < x →
      rowOutput dRow texRow pw ds w x =
        rowOutput dRow texRow pw ds w (linkTable dRow pw ds w x)) ∧
    (linkTable dRow pw ds w x = x →
      rowOutput dRow texRow pw ds w x = black) := by
  have hO := rowOutput_eq dRow texRow pw ds w x hx1 hx2
  refine ⟨linkTable_le dRow pw ds w x, ?_, ?_⟩
  · intro hlt
    rw [if_neg (Nat.ne_of_lt hlt)] at hO
    exact hO
  · intro hid
    rw [if_pos hid] at hO
    exact hO

/-- C1 witness: the amended claim at the counterexample's concrete input. -/
theorem resolution_single_pass_or_black_witness :
    linkTable (fun _ => 0) 1 1 2 1 ≤ 1 ∧
    (linkTable (fun _ => 0) 1 1 2 1 < 1 →
      rowOutput (fun _ => 0) (fun _ => ((7, 7, 7) : Pix)) 1 1 2 1 =
        rowOutput (fun _ => 0) (fun _ => ((7, 7, 7) : Pix)) 1 1 2
          (linkTable (fun _ => 0) 1 1 2 1)) ∧
    (linkTable (fun _ => 0) 1 1 2 1 = 1 →
      rowOutput (fun _ => 0) (fun _ => ((7, 7, 7) : Pix)) 1 1 2 1 = black) :=
  resolution_single_pass_or_black (fun _ => 0) (fun _ => ((7, 7, 7) : Pix))
    1 1 2 1 (by decide) (by decide)

/-- C2 (counterexample).  With `pattern_width = 0` (violating the claimed
precondition `pattern_width ≥ 1`) the checked synthesis still succeeds: no
error of any kind is signalled and an output buffer is produced. -/
theorem no_parameter_validation_cex :
    (synthesizeChkI (fun _ _ => 0) (fun _ _ => ((7, 7, 7) : Pix))
      0 5 2 1).isOk = true := by
  rfl

/-- C2 (amended).  `stereogram_from_depth_texture` performs no precondition
validation: a `DimensionMismatchError` cannot arise (the texture is resized
to the depth buffer's dimensions before the loops) and no typed
`InvalidParameterError` exists anywhere.  For every nonnegative parameter
pair — including `pattern_width = 0`, which the documented precondition
`pattern_width ≥ 1` forbids — synthesis of a byte-valued depth buffer
completes without signalling and produces an output buffer.  Negative
parameters are likewise unvalidated: instead of the claimed typed error
they can abort mid-row with an untyped numpy `IndexError`
(`depth_strength = -5` makes the chase read `indices[left - z]` past the
row end), so in no case does the claimed validate-then-abort behaviour
occur. -/
theorem synthesize_no_validation :
    (∀ (depth : Nat → Nat → Nat) (tex : Nat → Nat → Pix) (pw ds : Int)
        (w h : Nat), 0 ≤ pw → 0 ≤ ds → (∀ y x, x < w → depth y x ≤ 255) →
      synthesizeChkI depth tex pw ds w h =
        Except.ok ((List.range h).map
          (fun y => rowOutputI (depth y) (tex y) pw ds w))) ∧
    synthesizeChkI (fun _ _ => 0) (fun _ _ => ((7, 7, 7) : Pix)) 1 (-5) 2 1 =
      Except.error "IndexError" := by
  constructor
  · intro depth tex pw ds w h hpw hds hbyte
    exact rowsChkI_ok depth tex pw ds w hpw hds hbyte (List.range h)
  · rfl

/-- C2 witness: the universal half applied at `pattern_width = 0`,
`depth_strength = 5`, a 1×2 all-zero depth buffer. -/
theorem synthesize_no_validation_witness :
    synthesizeChkI (fun _ _ => 0) (fun _ _ => ((7, 7, 7) : Pix)) 0 5 2 1 =
      Except.ok ((List.range 1).map
        (fun _ => rowOutputI (fun _ => 0) (fun _ => ((7, 7, 7) : Pix)) 0 5 2)) :=
  synthesize_no_validation.1 (fun _ _ => 0) (fun _ _ => ((7, 7, 7) : Pix))
    0 5 2 1 (by decide) (by decide) (fun _ _ _ => Nat.zero_le 255)

/-- C4.  Seed fidelity: each of the first `pattern_width` columns of every
row is copied verbatim from the texture, for any depth buffer and any
`depth_strength`. -/
theorem seed_fidelity (depth : Nat → Nat → Nat) (tex : Nat → Nat → Pix)
    (pw ds w y x : Nat) (hx1 : x < pw) (hx2 : x < w) :
    synthesize depth tex pw ds w y x = tex y x :=
  rowOutput_lo (depth y) (tex y) pw ds w x hx1

/-- C4 witness. -/
theorem seed_fidelity_witness :
    synthesize (fun _ _ => 9) (fun _ _ => ((5, 6, 7) : Pix)) 3 7 5 0 1 =
      ((5, 6, 7) : Pix) :=
  seed_fidelity (fun _ _ => 9) (fun _ _ => ((5, 6, 7) : Pix)) 3 7 5 0 1
    (by decide) (by decide)

/-- C5.  Bounded shift: for a byte depth value the shift used by the link
pass satisfies `z ≤ depth_strength` (and `0 ≤ z` holds by type), with
`z = depth_strength` at depth 0 and `z = 0` at depth 255.  The source's
float expression is modelled in exact arithmetic, where `int()` of the
nonnegative value is the floor `ds * (255 - d) / 255`. -/
theorem shiftZ_bounds (ds d : Nat) (hd : d ≤ 255) :
    shiftZ ds d ≤ ds ∧ shiftZ ds 0 = ds ∧ shiftZ ds 255 = 0 := by
  refine ⟨?_, ?_, ?_⟩
  · calc ds * (255 - d) / 255 ≤ ds * 255 / 255 :=
        Nat.div_le_div_right (Nat.mul_le_mul_left ds (by omega))
      _ = ds := Nat.mul_div_cancel ds (by norm_num)
  · show ds * (255 - 0) / 255 = ds
    rw [Nat.sub_zero]
    exact Nat.mul_div_cancel ds (by norm_num)
  · show ds * (255 - 255) / 255 = 0
    simp

/-- C5 witness. -/
theorem shiftZ_bounds_witness :
    shiftZ 20 100 ≤ 20 ∧ shiftZ 20 0 = 20 ∧ shiftZ 20 255 = 0 :=
  shiftZ_bounds 20 100 (by decide)

/-- C6.  No out-of-range reads: after any prefix of the link pass (any
number `k` of processed columns), every cell of the link table holds a
valid column index `< w` (nonnegativity is inherent in `Nat`), so the
chase never references a negative or out-of-bounds column. -/
theorem link_index_in_range (dRow : Nat → Nat) (pw ds w k j : Nat)
    (hk : k ≤ w - pw) (hj : j < w) :
    linkFold dRow pw ds (List.range' pw k) j < w :=
  lt_of_le_of_lt (linkFold_le dRow pw ds _ _ (fun _ => le_refl _) j) hj

/-- C6 witness. -/
theorem link_index_in_range_witness :
    linkFold (fun _ => 0) 2 5 (List.range' 2 3) 4 < 5 :=
  link_index_in_range (fun _ => 0) 2 5 5 3 4 (by decide) (by decide)

/-- C3.  Identity tiling: with `depth_strength = 0` every shift is 0, each
in-range column links to the column `pattern_width` to its left, and the
output row is periodic with period `pattern_width`, for any depth buffer
contents. -/
theorem tiling_depth_strength_zero (depth : Nat → Nat → Nat)
    (tex : Nat → Nat → Pix) (pw w y x : Nat) (hpw : 1 ≤ pw)
    (hx1 : pw ≤ x) (hx2 : x < w) :
    synthesize depth tex pw 0 w y x = synthesize depth tex pw 0 w y (x - pw) := by
  have hz : ∀ d, shiftZ 0 d = 0 := fun d => by simp [shiftZ]
  have hrec : ∀ x, pw ≤ x → x < w →
      linkTable (depth y) pw 0 w x = linkTable (depth y) pw 0 w (x - pw) := by
    intro a ha1 ha2
    have h := linkTable_eq (depth y) pw 0 w hpw a ha1 ha2
    rw [hz (depth y a)] at h
    simpa using h
  have h1 := hrec x hx1 hx2
  have hlt : linkTable (depth y) pw 0 w x < x := by
    have hle := linkTable_le (depth y) pw 0 w (x - pw)
    omega
  have hO := rowOutput_eq (depth y) (tex y) pw 0 w x hx1 hx2
  rw [if_neg (Nat.ne_of_lt hlt), h1] at hO
  show rowOutput (depth y) (tex y) pw 0 w x =
    rowOutput (depth y) (tex y) pw 0 w (x - pw)
  by_cases hxp : x - pw < pw
  · rw [linkTable_lo (depth y) pw 0 w (x - pw) hxp] at hO
    exact hO
  · push_neg at hxp
    have hx2b : x - pw < w := by omega
    have h1b := hrec (x - pw) hxp hx2b
    have hltb : linkTable (depth y) pw 0 w (x - pw) < x - pw := by
      have hle := linkTable_le (depth y) pw 0 w (x - pw - pw)
      omega
    have hOb := rowOutput_eq (depth y) (tex y) pw 0 w (x - pw) hxp hx2b
    rw [if_neg (Nat.ne_of_lt hltb)] at hOb
    rw [hO, hOb]

/-- C3 witness: a 1-row, width-3 buffer with nonzero depth values. -/
theorem tiling_depth_strength_zero_witness :
    synthesize (fun _ _ => 5) (fun _ x => ((x, 0, 0) : Pix)) 1 0 3 0 2 =
      synthesize (fun _ _ => 5) (fun _ x => ((x, 0, 0) : Pix)) 1 0 3 0 (2 - 1) :=
  tiling_depth_strength_zero (fun _ _ => 5) (fun _ x => ((x, 0, 0) : Pix))
    1 3 0 2 (by decide) (by decide) (by decide)

/-- C8.  Auto-invert: the values are complemented (`v ↦ 255 - v`) exactly
when the mean intensity exceeds 200 (`200 * length < sum`), are returned
unchanged otherwise, and stay within `[0, 255]` in both cases. -/
theorem autoInvert_spec (arr : List Nat) (hb : ∀ v ∈ arr, v ≤ 255) :
    (200 * arr.length < arr.sum →
      autoInvert arr = arr.map (fun v => 255 - v)) ∧
    (¬ 200 * arr.length < arr.sum → autoInvert arr = arr) ∧
    (∀ v ∈ autoInvert arr, v ≤ 255) := by
  refine ⟨fun h => by simp [autoInvert, h], fun h => by simp [autoInvert, h], ?_⟩
  intro v hv
  by_cases h : 200 * arr.length < arr.sum
  · rw [autoInvert, if_pos h] at hv
    rcases List.mem_map.mp hv with ⟨u, _, rfl⟩
    exact Nat.sub_le 255 u
  · rw [autoInvert, if_neg h] at hv
    exact hb v hv

/-- C8 witness: a bright array (mean 250 > 200) of byte values. -/
theorem autoInvert_spec_witness :
    (200 * [250, 250].length < [250, 250].sum →
      autoInvert [250, 250] = [250, 250].map (fun v => 255 - v)) ∧
    (¬ 200 * [250, 250].length < [250, 250].sum →
      autoInvert [250, 250] = [250, 250]) ∧
    (∀ v ∈ autoInvert [250, 250], v ≤ 255) :=
  autoInvert_spec [250, 250] (by decide)

/-- C9.  Determinism: the synthesis output depends only on the contents of
the depth and texture buffers within their shared dimensions and on the two
scalar parameters; buffers equal cell-by-cell on the image produce
identical output pixels everywhere on the image.  (The embedding is a pure
function, so two calls on the very same arguments are definitionally
equal; this theorem states the stronger extensional form.) -/
theorem synthesize_deterministic (depth1 depth2 : Nat → Nat → Nat)
    (tex1 tex2 : Nat → Nat → Pix) (pw ds w h : Nat)
    (hd : ∀ y, y < h → ∀ x, x < w → depth1 y x = depth2 y x)
    (ht : ∀ y, y < h → ∀ x, x < w → tex1 y x = tex2 y x)
    (y x : Nat) (hy : y < h) (hx : x < w) :
    synthesize depth1 tex1 pw ds w y x = synthesize depth2 tex2 pw ds w y x := by
  have hfold : ∀ xs : List Nat, (∀ a ∈ xs, a < w) → ∀ ind : Nat → Nat,
      xs.foldl (linkStep (depth1 y) pw ds) ind =
        xs.foldl (linkStep (depth2 y) pw ds) ind := by
    intro xs
    induction xs with
    | nil => intro _ _; rfl
    | cons a as ih =>
        intro hmem ind
        have ha : a < w := hmem a (List.mem_cons_self a as)
        have hstep : linkStep (depth1 y) pw ds ind a =
            linkStep (depth2 y) pw ds ind a := by
          unfold linkStep
          rw [hd y hy a ha]
        calc (a :: as).foldl (linkStep (depth1 y) pw ds) ind
            = as.foldl (linkStep (depth1 y) pw ds)
                (linkStep (depth1 y) pw ds ind a) := rfl
          _ = as.foldl (linkStep (depth2 y) pw ds)
                (linkStep (depth1 y) pw ds ind a) :=
              ih (fun b hb => hmem b (List.mem_cons_of_mem a hb)) _
          _ = as.foldl (linkStep (depth2 y) pw ds)
                (linkStep (depth2 y) pw ds ind a) := by rw [hstep]
  have htab : ∀ j, linkTable (depth1 y) pw ds w j =
      linkTable (depth2 y) pw ds w j := by
    intro j
    unfold linkTable linkFold
    rw [hfold (List.range' pw (w - pw))
      (fun a ha => (mem_colRange pw w a ha).2) (fun i => i)]
  show rowOutput (depth1 y) (tex1 y) pw ds w x =
    rowOutput (depth2 y) (tex2 y) pw ds w x
  clear hd
  revert hx
  induction x using Nat.strong_induction_on with
  | _ x ih =>
      intro hx
      by_cases hxp : x < pw
      · rw [rowOutput_lo (depth1 y) (tex1 y) pw ds w x hxp,
          rowOutput_lo (depth2 y) (tex2 y) pw ds w x hxp]
        exact ht y hy x hx
      · push_neg at hxp
        rw [rowOutput_eq (depth1 y) (tex1 y) pw ds w x hxp hx,
          rowOutput_eq (depth2 y) (tex2 y) pw ds w x hxp hx, htab x]
        by_cases hI : linkTable (depth2 y) pw ds w x = x
        · rw [if_pos hI, if_pos hI]
        · rw [if_neg hI, if_neg hI]
          have hlt : linkTable (depth2 y) pw ds w x < x :=
            lt_of_le_of_ne (linkTable_le (depth2 y) pw ds w x) hI
          exact ih _ hlt (lt_trans hlt hx)

/-- C9 witness. -/
theorem synthesize_deterministic_witness :
    synthesize (fun _ _ => 0) (fun _ _ => ((1, 1, 1) : Pix)) 1 1 2 0 1 =
      synthesize (fun _ _ => 0) (fun _ _ => ((1, 1, 1) : Pix)) 1 1 2 0 1 :=
  synthesize_deterministic (fun _ _ => 0) (fun _ _ => 0)
    (fun _ _ => ((1, 1, 1) : Pix)) (fun _ _ => ((1, 1, 1) : Pix)) 1 1 2 1
    (fun _ _ _ _ => rfl) (fun _ _ _ _ => rfl) 0 1 (by decide) (by decide)

/-- C10.  Implicit fallback colour: for `pattern_width ≥ 1`, an in-range
column keeps the identity link exactly when `left - z < 0` held at its
step, and in that case the resolution pass assigns the cell from itself,
leaving the zero-initialised value — the pixel is black `(0,0,0)`, not a
texture sample. -/
theorem fallback_black_iff (dRow : Nat → Nat) (texRow : Nat → Pix)
    (pw ds w x : Nat) (hpw : 1 ≤ pw) (hx1 : pw ≤ x) (hx2 : x < w) :
    (linkTable dRow pw ds w x = x ↔ x - pw < shiftZ ds (dRow x)) ∧
    (linkTable dRow pw ds w x = x →
      rowOutput dRow texRow pw ds w x = black) := by
  have hrec := linkTable_eq dRow pw ds w hpw x hx1 hx2
  constructor
  · constructor
    · intro hid
      by_contra hnot
      push_neg at hnot
      rw [if_pos hnot] at hrec
      have hle := linkTable_le dRow pw ds w (x - pw - shiftZ ds (dRow x))
      omega
    · intro hgt
      rw [if_neg (by omega)] at hrec
      exact hrec
  · intro hid
    have hO := rowOutput_eq dRow texRow pw ds w x hx1 hx2
    rw [if_pos hid] at hO
    exact hO

/-- C10 witness: the fallback fires at `x = 1` for `pattern_width = 1`,
`depth_strength = 1`, depth 0. -/
theorem fallback_black_iff_witness :
    (linkTable (fun _ => 0) 1 1 2 1 = 1 ↔ 1 - 1 < shiftZ 1 ((fun _ => 0) 1)) ∧
    (linkTable (fun _ => 0) 1 1 2 1 = 1 →
      rowOutput (fun _ => 0) (fun _ => ((9, 9, 9) : Pix)) 1 1 2 1 = black) :=
  fallback_black_iff (fun _ => 0) (fun _ => ((9, 9, 9) : Pix)) 1 1 2 1
    (by decide) (by decide) (by decide)

end Stereogram
